import Mathlib

/-!
Verification development for the `slang` repository's two utility scripts:

* `scripts/refactor_parser.py` — a regex-based rewriter that converts raw
  heap-allocation call sites in C-like text to a custom allocator API,
  reports `free`/`realloc` call sites, and injects a helper-function block.
* `generate_large_module.py` — a templated generator of synthetic modules.

The scripts are embedded shallowly over `List Char`.  Each concrete regular
expression of the source is compiled by hand to a deterministic matcher
(every quantified subpattern in those regexes is followed by a disjoint
continuation, so greedy maximal-munch scanning coincides with Python's
backtracking search; the one place backtracking can fire — an all-whitespace
`[^)]+` group — is modelled explicitly).  `re.sub` and `re.finditer` become
fuel-indexed left-to-right scanners with non-overlapping replacement, the
fuel being the input length (every matcher consumes at least one character).
Python's `str.replace`, `str.find` (including its negative-start clamping)
and decimal interpolation of naturals are embedded directly.
-/

set_option maxRecDepth 8000

namespace SlangSpec

/-- Python `re`'s `\s` class (ASCII range, as exercised by the script). -/
def isSp (c : Char) : Bool :=
  c == ' ' || c == '\t' || c == '\n' || c == '\r' || c == '\x0b' || c == '\x0c'

/-- Python `re`'s `\w` class (ASCII range): letters, digits and underscore. -/
def isW (c : Char) : Bool := c.isAlphanum || c == '_'

/-- Match a literal keyword at the head of the input; on success return the rest. -/
def lit (kw s : List Char) : Option (List Char) :=
  if kw.isPrefixOf s then some (s.drop kw.length) else none

/-- Match one exact character at the head of the input. -/
def chr (c : Char) : List Char → Option (List Char)
  | [] => none
  | x :: xs => if x = c then some xs else none

/-- Greedy `\s*`. -/
def dropSp (s : List Char) : List Char := s.dropWhile isSp

/-- Greedy `\s*(\w+)`: whitespace, then a nonempty maximal word-character run. -/
def wordRun (s : List Char) : Option (List Char × List Char) :=
  let s1 := dropSp s
  let w := s1.takeWhile isW
  if w.isEmpty then none else some (w, s1.dropWhile isW)

/-- `\s*([^)]+)\s*\)`: the group is the maximal non-`)` run after the shortest
    amount of leading whitespace leaving it nonempty (when the whole run is
    whitespace the engine backtracks and the group is the final space).
    Returns (group, rest after the closing parenthesis). -/
def groupNoParen (s : List Char) : Option (List Char × List Char) :=
  let R := s.takeWhile (· != ')')
  match s.dropWhile (· != ')') with
  | ')' :: rest =>
    if R.isEmpty then none
    else
      let g := R.dropWhile isSp
      some ((if g.isEmpty then R.drop (R.length - 1) else g), rest)
  | _ => none

def mallocKw : List Char := "malloc".toList
def callocKw : List Char := "calloc".toList
def strdupKw : List Char := "strdup".toList
def freeKw : List Char := "free".toList
def reallocKw : List Char := "realloc".toList
def sizeofKw : List Char := "sizeof".toList

def tmplNew : List Char := "MEM_NEW(allocators_get(ALLOC_SYSTEM_PARSER), ".toList
def tmplNewArray : List Char := "MEM_NEW_ARRAY(allocators_get(ALLOC_SYSTEM_PARSER), ".toList
def tmplAlloc : List Char := "MEM_ALLOC(allocators_get(ALLOC_SYSTEM_PARSER), ".toList
def tmplStrdup : List Char := "MEM_STRDUP(allocators_get(ALLOC_SYSTEM_PARSER), ".toList

/-- Rule 1: `malloc\s*\(\s*sizeof\s*\(\s*(\w+)\s*\)\s*\)` →
    `MEM_NEW(allocators_get(ALLOC_SYSTEM_PARSER), \1)`. -/
def match1 (s : List Char) : Option (List Char × List Char) :=
  (lit mallocKw s).bind fun s1 =>
  (chr '(' (dropSp s1)).bind fun s2 =>
  (lit sizeofKw (dropSp s2)).bind fun s3 =>
  (chr '(' (dropSp s3)).bind fun s4 =>
  (wordRun s4).bind fun t =>
  (chr ')' (dropSp t.2)).bind fun s5 =>
  (chr ')' (dropSp s5)).map fun s6 =>
  (tmplNew ++ t.1 ++ [')'], s6)

/-- `\*?` after the type group of the array rules: taking the `*` commits,
    because the no-`*` alternative then meets `*` where `\s*\)` is required. -/
def starOpt : List Char → (List Char × List Char)
  | '*' :: rest => (['*'], rest)
  | s => ([], s)

/-- Rule 2: `malloc\s*\(\s*(\w+)\s*\*\s*sizeof\s*\(\s*(\w+\*?)\s*\)\s*\)` →
    `MEM_NEW_ARRAY(allocators_get(ALLOC_SYSTEM_PARSER), \2, \1)`. -/
def match2 (s : List Char) : Option (List Char × List Char) :=
  (lit mallocKw s).bind fun s1 =>
  (chr '(' (dropSp s1)).bind fun s2 =>
  (wordRun s2).bind fun n =>
  (chr '*' (dropSp n.2)).bind fun s3 =>
  (lit sizeofKw (dropSp s3)).bind fun s4 =>
  (chr '(' (dropSp s4)).bind fun s5 =>
  (wordRun s5).bind fun t =>
  let st := starOpt t.2
  (chr ')' (dropSp st.2)).bind fun s6 =>
  (chr ')' (dropSp s6)).map fun s7 =>
  (tmplNewArray ++ t.1 ++ st.1 ++ [',', ' '] ++ n.1 ++ [')'], s7)

/-- Rule 3: `calloc\s*\(\s*1\s*,\s*sizeof\s*\(\s*(\w+)\s*\)\s*\)` →
    `MEM_NEW(allocators_get(ALLOC_SYSTEM_PARSER), \1)`. -/
def match3 (s : List Char) : Option (List Char × List Char) :=
  (lit callocKw s).bind fun s1 =>
  (chr '(' (dropSp s1)).bind fun s2 =>
  (chr '1' (dropSp s2)).bind fun s3 =>
  (chr ',' (dropSp s3)).bind fun s4 =>
  (lit sizeofKw (dropSp s4)).bind fun s5 =>
  (chr '(' (dropSp s5)).bind fun s6 =>
  (wordRun s6).bind fun t =>
  (chr ')' (dropSp t.2)).bind fun s7 =>
  (chr ')' (dropSp s7)).map fun s8 =>
  (tmplNew ++ t.1 ++ [')'], s8)

/-- Rule 4: `calloc\s*\(\s*(\w+)\s*,\s*sizeof\s*\(\s*(\w+\*?)\s*\)\s*\)` →
    `MEM_NEW_ARRAY(allocators_get(ALLOC_SYSTEM_PARSER), \2, \1)`. -/
def match4 (s : List Char) : Option (List Char × List Char) :=
  (lit callocKw s).bind fun s1 =>
  (chr '(' (dropSp s1)).bind fun s2 =>
  (wordRun s2).bind fun n =>
  (chr ',' (dropSp n.2)).bind fun s3 =>
  (lit sizeofKw (dropSp s3)).bind fun s4 =>
  (chr '(' (dropSp s4)).bind fun s5 =>
  (wordRun s5).bind fun t =>
  let st := starOpt t.2
  (chr ')' (dropSp st.2)).bind fun s6 =>
  (chr ')' (dropSp s6)).map fun s7 =>
  (tmplNewArray ++ t.1 ++ st.1 ++ [',', ' '] ++ n.1 ++ [')'], s7)

/-- The negative lookahead `(?!\s*\*\s*sizeof)` of rule 5. -/
def laStarSizeof (s : List Char) : Bool :=
  match chr '*' (dropSp s) with
  | some s1 => sizeofKw.isPrefixOf (dropSp s1)
  | none => false

/-- Rule 5: `malloc\s*\(\s*([^)]+)\s*\)(?!\s*\*\s*sizeof)` →
    `MEM_ALLOC(allocators_get(ALLOC_SYSTEM_PARSER), \1)`.  A failed lookahead
    fails the whole match at this position: the group can only end at the
    first `)`, so the engine has no other way to match here. -/
def match5 (s : List Char) : Option (List Char × List Char) :=
  (lit mallocKw s).bind fun s1 =>
  (chr '(' (dropSp s1)).bind fun s2 =>
  (groupNoParen s2).bind fun g =>
  if laStarSizeof g.2 then none else some (tmplAlloc ++ g.1 ++ [')'], g.2)

/-- Rule 6: `strdup\s*\(\s*([^)]+)\s*\)` →
    `MEM_STRDUP(allocators_get(ALLOC_SYSTEM_PARSER), \1)`. -/
def match6 (s : List Char) : Option (List Char × List Char) :=
  (lit strdupKw s).bind fun s1 =>
  (chr '(' (dropSp s1)).bind fun s2 =>
  (groupNoParen s2).map fun g =>
  (tmplStrdup ++ g.1 ++ [')'], g.2)

def stdlibLine : List Char := "#include <stdlib.h>\n".toList

/-- The literal pattern `#include <stdlib\.h>\n`, replaced by the empty string. -/
def matchStdlib (s : List Char) : Option (List Char × List Char) :=
  (lit stdlibLine s).map fun rest => ([], rest)

/-- `free\s*\(\s*([^)]+)\s*\)`, returning the whole matched span (`group(0)`,
    which is what the diagnostics print) and the rest.  The span is the same
    for every backtracking outcome, so only nonemptiness of the run between
    the parentheses matters. -/
def matchFree (s : List Char) : Option (List Char × List Char) :=
  (lit freeKw s).bind fun s1 =>
  let sp1 := s1.takeWhile isSp
  (chr '(' (s1.dropWhile isSp)).bind fun s2 =>
  let R := s2.takeWhile (· != ')')
  match s2.dropWhile (· != ')') with
  | ')' :: rest => if R.isEmpty then none else some (freeKw ++ sp1 ++ ['('] ++ R ++ [')'], rest)
  | _ => none

/-- `realloc\s*\(\s*([^,]+)\s*,\s*([^)]+)\s*\)`, returning the matched span. -/
def matchRealloc (s : List Char) : Option (List Char × List Char) :=
  (lit reallocKw s).bind fun s1 =>
  let sp1 := s1.takeWhile isSp
  (chr '(' (s1.dropWhile isSp)).bind fun s2 =>
  let R1 := s2.takeWhile (· != ',')
  match s2.dropWhile (· != ',') with
  | ',' :: s3 =>
    if R1.isEmpty then none
    else
      let R2 := s3.takeWhile (· != ')')
      match s3.dropWhile (· != ')') with
      | ')' :: rest =>
        if R2.isEmpty then none
        else some (reallocKw ++ sp1 ++ ['('] ++ R1 ++ [','] ++ R2 ++ [')'], rest)
      | _ => none
  | _ => none

/-- `re.sub` driver: scan left to right, replace each leftmost non-overlapping
    match and continue after it.  Fuel-indexed for structural recursion; every
    matcher of this file consumes at least one character, so fuel = input
    length always suffices. -/
def substFuel (m : List Char → Option (List Char × List Char)) :
    Nat → List Char → List Char
  | _, [] => []
  | 0, s => s
  | fuel + 1, c :: cs =>
    match m (c :: cs) with
    | some (rep, rest) => rep ++ substFuel m fuel rest
    | none => c :: substFuel m fuel cs

/-- `re.sub m s`. -/
def pySub (m : List Char → Option (List Char × List Char)) (s : List Char) : List Char :=
  substFuel m s.length s

def countNl (s : List Char) : Nat := s.count '\n'

/-- `re.finditer` driver, paired with the script's reporting: for each match
    record `(number of newlines before the match start) + 1` and the matched
    span `group(0)`. -/
def scanFuel (m : List Char → Option (List Char × List Char)) :
    Nat → List Char → Nat → List (Nat × List Char)
  | _, [], _ => []
  | 0, _, _ => []
  | fuel + 1, c :: cs, nl =>
    match m (c :: cs) with
    | some (mtext, rest) => (nl + 1, mtext) :: scanFuel m fuel rest (nl + countNl mtext)
    | none => scanFuel m fuel cs (nl + if c = '\n' then 1 else 0)

def pyFinditer (m : List Char → Option (List Char × List Char)) (s : List Char) :
    List (Nat × List Char) :=
  scanFuel m s.length s 0

/-- Python `str.replace(old, new, 1)` for nonempty `old`. -/
def replaceFirst (old new : List Char) : List Char → List Char
  | [] => []
  | c :: cs =>
    if old.isPrefixOf (c :: cs) then new ++ (c :: cs).drop old.length
    else c :: replaceFirst old new cs

/-- Index of the first occurrence of `kw` in the input, if any. -/
def findAux (kw : List Char) : List Char → Option Nat
  | [] => if kw.isEmpty then some 0 else none
  | c :: cs =>
    if kw.isPrefixOf (c :: cs) then some 0
    else (findAux kw cs).map (· + 1)

/-- The search of `str.find` from an already-clamped non-negative index. -/
def pyFindNat (s sub : List Char) (st : Nat) : Int :=
  if st > s.length then -1
  else
    match findAux sub (s.drop st) with
    | some k => ((st + k : Nat) : Int)
    | none => -1

/-- Python `str.find(sub, start)`: a negative start counts from the end and is
    clamped at 0; a start beyond the length yields -1; otherwise the least
    index ≥ start of an occurrence, or -1. -/
def pyFind (s sub : List Char) (start : Int) : Int :=
  pyFindNat s sub (if start < 0 then ((s.length : Int) + start).toNat else start.toNat)

/-- Does `kw` occur as a contiguous substring? -/
def containsSub (kw : List Char) : List Char → Bool
  | [] => kw.isEmpty
  | c :: cs => kw.isPrefixOf (c :: cs) || containsSub kw cs

/-- Number of positions at which `kw` occurs as a contiguous substring. -/
def countOcc (kw : List Char) : List Char → Nat
  | [] => 0
  | c :: cs => (if kw.isPrefixOf (c :: cs) then 1 else 0) + countOcc kw cs

/- ## The rewriter pipeline (`scripts/refactor_parser.py`) -/

def anchorInclude : List Char := "#include \"parser/parser.h\"".toList
def allocatorsInclude : List Char := "#include \"utils/allocators.h\"\n".toList

/-- What the first anchor occurrence is replaced with: the anchor itself, a
    newline, and the allocators include line. -/
def injectedText : List Char := anchorInclude ++ ['\n'] ++ allocatorsInclude

/-- Step 1 of `refactor_parser_memory`: `content.replace(anchor, anchor + "\n" + includes, 1)`. -/
def injectInclude (content : List Char) : List Char :=
  replaceFirst anchorInclude injectedText content

/-- Step 2: `re.sub(r'#include <stdlib\.h>\n', '', content)`. -/
def removeStdlib (content : List Char) : List Char := pySub matchStdlib content

/-- The six substitution rules, applied to the whole text in listed order. -/
def applyRules (content : List Char) : List Char :=
  pySub match6 (pySub match5 (pySub match4 (pySub match3 (pySub match2 (pySub match1 content)))))

/-- The text as it stands when `refactor_parser_memory` returns it. -/
def refactorText (content : List Char) : List Char :=
  applyRules (removeStdlib (injectInclude content))

/-- The `free()` diagnostics the script prints: computed over the text after
    the substitution pipeline has run. -/
def freeReports (content : List Char) : List (Nat × List Char) :=
  pyFinditer matchFree (refactorText content)

/-- The `realloc()` diagnostics, likewise over the post-substitution text. -/
def reallocReports (content : List Char) : List (Nat × List Char) :=
  pyFinditer matchRealloc (refactorText content)

/-- `refactor_parser_memory`: the returned text and the two diagnostic lists. -/
def refactor_parser_memory (content : List Char) :
    List Char × List (Nat × List Char) × List (Nat × List Char) :=
  (refactorText content, freeReports content, reallocReports content)

/-- The helper block of `add_allocator_helpers` without its leading newline. -/
def allocHelpersBody : List Char :=
  ("// Helper function to duplicate token lexeme using parser allocator\nstatic char* parser_strdup_lexeme(const char* lexeme, size_t length)\n\x7b\n    Allocator* alloc = allocators_get(ALLOC_SYSTEM_PARSER);\n    char* result = MEM_ALLOC(alloc, length + 1);\n    if (result) \x7b\n        memcpy(result, lexeme, length);\n        result[length] = '\\0';\n    \x7d\n    return result;\n\x7d\n\n// Helper to free string allocated by parser\nstatic void parser_free_string(char* str)\n\x7b\n    if (str) \x7b\n        Allocator* alloc = allocators_get(ALLOC_SYSTEM_PARSER);\n        MEM_FREE(alloc, str, strlen(str) + 1);\n    \x7d\n\x7d\n\n").toList

/-- The script's `helpers` triple-quoted string (it starts with a newline). -/
def allocHelpers : List Char := '\n' :: allocHelpersBody

def includeKw : List Char := "#include".toList
def blankSep : List Char := ['\n', '\n']

/-- `add_allocator_helpers`: insert the helper block at the first `"\n\n"`
    found from the first `"#include"` on (`content.find` semantics, including
    the -1 fallthrough), or return the text unchanged. -/
def add_allocator_helpers (content : List Char) : List Char :=
  let insertPos := pyFind content blankSep (pyFind content includeKw 0)
  if 0 < insertPos then
    content.take insertPos.toNat ++ ['\n'] ++ allocHelpers ++ content.drop insertPos.toNat
  else content

/-- The whole text transformation of a `__main__` run: rewrite, then helpers. -/
def fullPipeline (content : List Char) : List Char :=
  add_allocator_helpers (refactorText content)

/-- The one-rule matcher behind `str.replace(old, new)`. -/
def extMatcher (old new : List Char) (cs : List Char) : Option (List Char × List Char) :=
  if old.isPrefixOf cs then some (new, cs.drop old.length) else none

/-- Python `str.replace(old, new)` for nonempty `old`: every non-overlapping
    leftmost occurrence is replaced. -/
def pyReplaceAll (old new : List Char) (s : List Char) : List Char :=
  pySub (extMatcher old new) s

/-- `filename.replace('.c', '_refactored.c')` of the `__main__` block. -/
def output_filename (filename : List Char) : List Char :=
  pyReplaceAll ".c".toList "_refactored.c".toList filename

/- ## The module generator (`generate_large_module.py`) -/

/-- The decimal digit characters. -/
def decDigits : List Char := "0123456789".toList

def digitChar (d : Nat) : Char := Char.ofNat (48 + d)

def natCharsCore : Nat → Nat → List Char → List Char
  | 0, _, acc => acc
  | fuel + 1, n, acc =>
    if n < 10 then digitChar n :: acc
    else natCharsCore fuel (n / 10) (digitChar (n % 10) :: acc)

/-- Decimal rendering of a natural number, as Python interpolates a
    non-negative `int` into a format string. -/
def natChars (n : Nat) : List Char := natCharsCore (n + 1) n []

/-- `code += block(i)` for `i in range(k)`. -/
def blocksUpTo (f : Nat → List Char) : Nat → List Char
  | 0 => []
  | k + 1 => blocksUpTo f k ++ f k

def fixHead1 : List Char :=
  "// Large module for performance testing\n// This module contains ".toList
def fixHead2 : List Char :=
  " functions to test compilation and loading performance\n\n".toList
/-- `func privateHelper`: how each private helper definition starts. -/
def patPrivate : List Char := "func privateHelper".toList
def fixH2 : List Char := "(x) \x7b\n    let result = x * ".toList
def fixH3 : List Char := "\n    return result\n\x7d\n\n".toList
/-- `export func publicFunction`: how each exported definition starts. -/
def patExport : List Char := "export func publicFunction".toList
def fixE2 : List Char := "(a, b) \x7b\n    let temp = privateHelper".toList
def fixE3 : List Char := "(a)\n    return temp + b\n\x7d\n\n".toList
def fixFoot1 : List Char :=
  "// Module initialization\nprint(\"[Large Module] Loaded with ".toList
def fixFoot2 : List Char := " functions\")\n".toList

def moduleHeader (n : Nat) : List Char := fixHead1 ++ natChars n ++ fixHead2

def helperBlock (i : Nat) : List Char :=
  patPrivate ++ natChars i ++ fixH2 ++ natChars (i + 1) ++ fixH3

def exportBlock (i : Nat) : List Char :=
  patExport ++ natChars i ++ fixE2 ++ natChars (i % 10) ++ fixE3

def moduleFooter (n : Nat) : List Char := fixFoot1 ++ natChars n ++ fixFoot2

/-- `generate_large_module(n)`. -/
def generate_large_module (n : Nat) : List Char :=
  moduleHeader n
    ++ blocksUpTo helperBlock (n / 2)
    ++ blocksUpTo exportBlock (n / 2)
    ++ moduleFooter n

end SlangSpec

namespace SlangSpec

/- ## Substring occurrences and straddling -/

/-- `kw` occurs as a contiguous substring of `s`. -/
def Occ (kw s : List Char) : Prop := ∃ n, kw <+: s.drop n

/-- A split of `kw` witnessing an occurrence across the border of `a ++ b`. -/
def Straddles (kw a b : List Char) : Prop :=
  ∃ k1 k2, kw = k1 ++ k2 ∧ k1 ≠ [] ∧ k2 ≠ [] ∧ k1 <:+ a ∧ k2 <+: b

theorem prefixSplit {p a b : List Char} (h : p <+: a ++ b) :
    p <+: a ∨ ∃ k2, p = a ++ k2 ∧ k2 <+: b := by
  induction a generalizing p with
  | nil => exact Or.inr ⟨p, rfl, h⟩
  | cons c a ih =>
    match p with
    | [] => exact Or.inl List.nil_prefix
    | d :: p =>
      rw [List.cons_append, List.cons_prefix_cons] at h
      obtain ⟨rfl, h⟩ := h
      rcases ih h with h1 | ⟨k2, rfl, hk⟩
      · exact Or.inl (List.cons_prefix_cons.mpr ⟨rfl, h1⟩)
      · exact Or.inr ⟨k2, rfl, hk⟩

theorem prefix_of_append_of_le {p a b : List Char} (h : p <+: a ++ b)
    (hl : p.length ≤ a.length) : p <+: a := by
  rcases prefixSplit h with h1 | ⟨k2, rfl, hk⟩
  · exact h1
  · have hlen : a.length + k2.length ≤ a.length := by
      rw [← List.length_append]; exact hl
    have hk2 : k2 = [] := List.length_eq_zero.mp (by omega)
    simp [hk2]

theorem suffix_of_append_of_le {p a b : List Char} (h : p <:+ a ++ b)
    (hl : p.length ≤ b.length) : p <:+ b := by
  rw [← List.reverse_prefix] at h ⊢
  rw [List.reverse_append] at h
  exact prefix_of_append_of_le h (by simpa using hl)

theorem drop_append_of_le {a b : List Char} {n : Nat} (h : n ≤ a.length) :
    (a ++ b).drop n = a.drop n ++ b := by
  rw [List.drop_append_eq_append_drop, Nat.sub_eq_zero_of_le h, List.drop]

theorem occ_append {kw a b : List Char} (h : Occ kw (a ++ b)) :
    Occ kw a ∨ Occ kw b ∨ Straddles kw a b := by
  obtain ⟨n, hn⟩ := h
  by_cases hle : n ≤ a.length
  · rw [drop_append_of_le hle] at hn
    rcases prefixSplit hn with h1 | ⟨k2, hkw, hk⟩
    · exact Or.inl ⟨n, h1⟩
    · by_cases hd : a.drop n = []
      · refine Or.inr (Or.inl ⟨0, ?_⟩)
        rw [List.drop_zero, hkw, hd, List.nil_append]
        exact hk
      · by_cases hk2 : k2 = []
        · exact Or.inl ⟨n, by simp [hkw, hk2]⟩
        · exact Or.inr (Or.inr ⟨a.drop n, k2, hkw, hd, hk2, List.drop_suffix n a, hk⟩)
  · refine Or.inr (Or.inl ⟨n - a.length, ?_⟩)
    rwa [List.drop_append_eq_append_drop, List.drop_eq_nil_of_le (by omega),
      List.nil_append] at hn

theorem occ_append_left {kw a : List Char} (b : List Char) (h : Occ kw a) :
    Occ kw (a ++ b) := by
  obtain ⟨n, hn⟩ := h
  exact ⟨n, by rw [List.drop_append_eq_append_drop]
               exact hn.trans (List.prefix_append _ _)⟩

theorem occ_append_right {kw b : List Char} (a : List Char) (h : Occ kw b) :
    Occ kw (a ++ b) := by
  obtain ⟨n, hn⟩ := h
  exact ⟨a.length + n, by
    rw [List.drop_append_eq_append_drop, List.drop_eq_nil_of_le (by omega),
      List.nil_append, Nat.add_sub_cancel_left]
    exact hn⟩

theorem occ_of_take {kw a : List Char} {n : Nat} (h : Occ kw (a.take n)) : Occ kw a := by
  have := occ_append_left (a.drop n) h
  rwa [List.take_append_drop] at this

theorem occ_of_drop {kw a : List Char} {n : Nat} (h : Occ kw (a.drop n)) : Occ kw a := by
  have := occ_append_right (a.take n) h
  rwa [List.take_append_drop] at this

theorem containsSub_iff {kw s : List Char} : containsSub kw s = true ↔ Occ kw s := by
  induction s with
  | nil =>
    simp only [containsSub, List.isEmpty_iff]
    constructor
    · rintro rfl; exact ⟨0, List.nil_prefix⟩
    · rintro ⟨n, hn⟩
      simpa [List.prefix_nil] using hn
  | cons c cs ih =>
    simp only [containsSub, Bool.or_eq_true, List.isPrefixOf_iff_prefix, ih]
    constructor
    · rintro (h | ⟨n, hn⟩)
      · exact ⟨0, h⟩
      · exact ⟨n + 1, hn⟩
    · rintro ⟨n, hn⟩
      match n with
      | 0 => exact Or.inl hn
      | n + 1 => exact Or.inr ⟨n, hn⟩

theorem containsSub_false_iff {kw s : List Char} :
    containsSub kw s = false ↔ ¬ Occ kw s := by
  rw [← containsSub_iff]
  cases containsSub kw s <;> simp

theorem occ_mono_infix {kw pre mid post : List Char} (h : Occ kw mid) :
    Occ kw (pre ++ mid ++ post) :=
  occ_append_left _ (occ_append_right _ h)

/- ## Eliminating straddles -/

theorem straddle_elim_right {kw a b : List Char} {c : Char} (hb : b.head? = some c)
    (hc : c ∉ kw) : ¬ Straddles kw a b := by
  rintro ⟨k1, k2, hkw, -, hk2, -, hp⟩
  match k2, hk2 with
  | x :: k2, _ =>
    obtain ⟨t, ht⟩ := hp
    have hx : x = c := by
      have : b.head? = some x := by rw [← ht]; rfl
      rw [hb] at this; exact (Option.some_inj.mp this).symm
    exact hc (hx ▸ hkw ▸ List.mem_append_right k1 (List.mem_cons_self x k2))

theorem straddle_elim_last {kw a b : List Char} {c : Char} (ha : a.getLast? = some c)
    (hc : c ∉ kw) : ¬ Straddles kw a b := by
  rintro ⟨k1, k2, hkw, hk1, -, hs, -⟩
  obtain ⟨t, rfl⟩ := hs
  have hlast : k1.getLast? = some c := by
    rwa [List.getLast?_append_of_ne_nil _ hk1] at ha
  have hmem : c ∈ k1 := by
    obtain ⟨hne, heq⟩ := List.mem_getLast?_eq_getLast (Option.mem_def.mpr hlast)
    exact heq.symm ▸ List.getLast_mem hne
  exact hc (hkw ▸ List.mem_append_left k2 hmem)

theorem straddle_elim_left_mem {kw a b : List Char} (hsub : ∀ c ∈ a, c ∈ decDigits)
    (hh : ∀ c, kw.head? = some c → c ∉ decDigits) : ¬ Straddles kw a b := by
  rintro ⟨k1, k2, hkw, hk1, -, hs, -⟩
  match k1, hk1 with
  | x :: k1, _ =>
    have hx : kw.head? = some x := by rw [hkw]; rfl
    exact hh x hx (hsub x (hs.subset (List.mem_cons_self x k1)))

theorem straddle_elim_mid {kw a mid post : List Char} (hlen : kw.length ≤ mid.length)
    (hk : ∀ m, m < kw.length → 0 < m → ¬ (kw.drop m <+: mid)) :
    ¬ Straddles kw a (mid ++ post) := by
  rintro ⟨k1, k2, hkw, hk1, hk2, -, hp⟩
  have hdrop : k2 = kw.drop k1.length := by rw [hkw, List.drop_left]
  have hlt : k1.length < kw.length := by
    rw [hkw, List.length_append]
    have : 0 < k2.length := List.length_pos.mpr hk2
    omega
  have hpos : 0 < k1.length := List.length_pos.mpr hk1
  have hk2len : k2.length ≤ mid.length := by
    have : k2.length ≤ kw.length := hkw ▸ by simp
    omega
  exact hk k1.length hlt hpos (hdrop ▸ prefix_of_append_of_le hp (hdrop ▸ hk2len))

theorem straddle_elim_midleft {kw mid b : List Char} (pre : List Char)
    (hlen : kw.length ≤ mid.length)
    (hk : ∀ m, m < kw.length → 0 < m → ¬ (kw.take m <:+ mid)) :
    ¬ Straddles kw (pre ++ mid) b := by
  rintro ⟨k1, k2, hkw, hk1, hk2, hs, -⟩
  have htake : k1 = kw.take k1.length := by rw [hkw, List.take_left]
  have hlt : k1.length < kw.length := by
    rw [hkw, List.length_append]
    have : 0 < k2.length := List.length_pos.mpr hk2
    omega
  have hpos : 0 < k1.length := List.length_pos.mpr hk1
  have hk1len : k1.length ≤ mid.length := by omega
  exact hk k1.length hlt hpos (htake ▸ suffix_of_append_of_le hs (htake ▸ hk1len))

end SlangSpec

namespace SlangSpec

/- ## Counting occurrences -/

theorem countOcc_append {kw a b : List Char} (hns : ¬ Straddles kw a b) :
    countOcc kw (a ++ b) = countOcc kw a + countOcc kw b := by
  induction a with
  | nil => simp [countOcc]
  | cons c a ih =>
    have hns' : ¬ Straddles kw a b := by
      rintro ⟨k1, k2, h1, h2, h3, h4, h5⟩
      exact hns ⟨k1, k2, h1, h2, h3, h4.trans (List.suffix_cons c a), h5⟩
    have hhead : kw.isPrefixOf (c :: (a ++ b)) = kw.isPrefixOf (c :: a) := by
      rw [Bool.eq_iff_iff, List.isPrefixOf_iff_prefix, List.isPrefixOf_iff_prefix]
      constructor
      · intro h
        rcases prefixSplit (a := c :: a) (b := b) h with h1 | ⟨k2, hkw2, hk⟩
        · exact h1
        · by_cases hk2 : k2 = []
          · rw [hk2, List.append_nil] at hkw2
            exact hkw2 ▸ List.prefix_refl _
          · exact absurd ⟨c :: a, k2, hkw2, List.cons_ne_nil c a, hk2,
              List.suffix_refl _, hk⟩ hns
      · exact fun h => h.trans (List.prefix_append _ _)
    rw [List.cons_append, countOcc, countOcc, ih hns', hhead]
    omega

theorem countOcc_zero_of_head {c0 : Char} {kw' s : List Char} (h : c0 ∉ s) :
    countOcc (c0 :: kw') s = 0 := by
  induction s with
  | nil => rfl
  | cons c cs ih =>
    have hni : ¬ ((c0 :: kw').isPrefixOf (c :: cs) = true) := by
      rw [List.isPrefixOf_iff_prefix, List.cons_prefix_cons]
      rintro ⟨rfl, -⟩
      exact h (List.mem_cons_self _ _)
    have hfalse : (c0 :: kw').isPrefixOf (c :: cs) = false := Bool.eq_false_iff.mpr hni
    rw [countOcc, hfalse, ih fun hm => h (List.mem_cons_of_mem c hm)]
    rfl

theorem straddle_elim_self {kw b : List Char} {c0 : Char} {kw' : List Char}
    (hkw : kw = c0 :: kw') (hc : c0 ∉ kw') : ¬ Straddles kw kw b := by
  rintro ⟨k1, k2, hsplit, hk1, hk2, hs, -⟩
  obtain ⟨t, ht⟩ := hs
  match k1, hk1 with
  | x :: k1', _ =>
    have hx : x = c0 := by
      have h1 : kw.head? = some x := by rw [hsplit]; rfl
      rw [hkw] at h1
      exact (Option.some_inj.mp h1).symm
    have ht' : t ≠ [] := by
      rintro rfl
      rw [List.nil_append] at ht
      have h2 : kw.length = (x :: k1').length + k2.length := by
        rw [hsplit, List.length_append]
      have h3 : kw.length = (x :: k1').length := by rw [← ht]
      have : k2.length = 0 := by omega
      exact hk2 (List.length_eq_zero.mp this)
    match t, ht' with
    | d :: t', _ =>
      have hkw' : c0 :: kw' = d :: (t' ++ x :: k1') := by
        rw [← hkw, ← ht, List.cons_append]
      have : kw' = t' ++ x :: k1' := by injection hkw'
      exact hc (this ▸ List.mem_append_right t' (hx ▸ List.mem_cons_self x k1'))

/- ## The `re.sub` and `re.finditer` drivers -/

/-- Every matcher of this file consumes at least one character. -/
def Consumes (m : List Char → Option (List Char × List Char)) : Prop :=
  ∀ c cs rep rest, m (c :: cs) = some (rep, rest) → rest.length ≤ cs.length

/-- The matched span and the rest reassemble to the input (needed for the
    diagnostics scanners). -/
def Reconstructs (m : List Char → Option (List Char × List Char)) : Prop :=
  ∀ s sp rest, m s = some (sp, rest) → s = sp ++ rest

theorem substFuel_congr {m : List Char → Option (List Char × List Char)}
    (hm : Consumes m) :
    ∀ fuel s, s.length ≤ fuel → substFuel m fuel s = substFuel m s.length s := by
  intro fuel
  induction fuel using Nat.strong_induction_on with
  | _ fuel ih =>
    intro s hs
    match s with
    | [] => cases fuel <;> rfl
    | c :: cs =>
      cases fuel with
      | zero =>
        simp only [List.length_cons] at hs
        omega
      | succ f =>
        simp only [List.length_cons] at hs
        have hcs : cs.length ≤ f := by omega
        cases hm2 : m (c :: cs) with
        | none =>
          simp only [substFuel, List.length_cons, hm2]
          rw [ih f (by omega) cs hcs]
        | some pr =>
          obtain ⟨rep, rest⟩ := pr
          have hrest : rest.length ≤ cs.length := hm _ _ _ _ hm2
          simp only [substFuel, List.length_cons, hm2]
          rw [ih f (by omega) rest (by omega),
            ih cs.length (by omega) rest hrest]

theorem pySub_cons_none {m : List Char → Option (List Char × List Char)}
    {c : Char} {cs : List Char} (h : m (c :: cs) = none) :
    pySub m (c :: cs) = c :: pySub m cs := by
  unfold pySub
  simp only [List.length_cons, substFuel, h]

theorem pySub_cons_some {m : List Char → Option (List Char × List Char)}
    (hm : Consumes m) {c : Char} {cs rep rest : List Char}
    (h : m (c :: cs) = some (rep, rest)) :
    pySub m (c :: cs) = rep ++ pySub m rest := by
  unfold pySub
  simp only [List.length_cons, substFuel, h]
  rw [substFuel_congr hm cs.length rest (hm _ _ _ _ h)]

/-- A rule whose keyword does not occur in the text leaves it unchanged. -/
theorem pySub_id {m : List Char → Option (List Char × List Char)}
    {kw : List Char}
    (hm : ∀ s r, m s = some r → kw.isPrefixOf s = true)
    {s : List Char} (hno : containsSub kw s = false) : pySub m s = s := by
  induction s with
  | nil => rfl
  | cons c cs ih =>
    rw [containsSub, Bool.or_eq_false_iff] at hno
    cases h : m (c :: cs) with
    | none => rw [pySub_cons_none h, ih hno.2]
    | some r => rw [hm _ _ h] at hno; exact absurd hno.1 (by simp)

/-- Soundness of the diagnostics scanner: every reported pair is a matched
    span occurring in the scanned text, with the reported number equal to one
    plus the newlines before the span. -/
theorem scanFuel_sound {m : List Char → Option (List Char × List Char)}
    (hm : Reconstructs m) :
    ∀ fuel s nl pr, pr ∈ scanFuel m fuel s nl →
      ∃ pre post, s = pre ++ pr.2 ++ post ∧ pr.1 = nl + countNl pre + 1 := by
  intro fuel
  induction fuel with
  | zero =>
    intro s nl pr hpr
    match s with
    | [] => cases hpr
    | c :: cs => cases hpr
  | succ fuel ih =>
    intro s nl pr hpr
    match s with
    | [] => cases hpr
    | c :: cs =>
      cases hm2 : m (c :: cs) with
      | none =>
        rw [scanFuel, hm2] at hpr
        obtain ⟨pre, post, heq, hln⟩ := ih cs (nl + if c = '\n' then 1 else 0) pr hpr
        refine ⟨c :: pre, post, by rw [heq]; rfl, ?_⟩
        rw [hln]
        simp only [countNl, List.count_cons]
        by_cases hcn : c = '\n'
        · simp [hcn]
          omega
        · simp [hcn]
      | some pr2 =>
        obtain ⟨sp, rest⟩ := pr2
        rw [scanFuel, hm2] at hpr
        rcases List.mem_cons.mp hpr with rfl | hpr2
        · exact ⟨[], rest, by simpa using hm _ _ _ hm2, by simp [countNl]⟩
        · obtain ⟨pre, post, heq, hln⟩ := ih rest (nl + countNl sp) pr hpr2
          refine ⟨sp ++ pre, post, ?_, ?_⟩
          · rw [hm _ _ _ hm2, heq]
            simp [List.append_assoc]
          · rw [hln]
            simp only [countNl, List.count_append]
            omega

theorem pyFinditer_sound {m : List Char → Option (List Char × List Char)}
    (hm : Reconstructs m) {s : List Char} {pr : Nat × List Char}
    (hpr : pr ∈ pyFinditer m s) :
    ∃ pre post, s = pre ++ pr.2 ++ post ∧ pr.1 = countNl pre + 1 := by
  obtain ⟨pre, post, heq, hln⟩ := scanFuel_sound hm s.length s 0 pr hpr
  exact ⟨pre, post, heq, by omega⟩

end SlangSpec

namespace SlangSpec

/- ## Facts about the individual matchers -/

theorem lit_isPrefix {kw s r : List Char} (h : lit kw s = some r) :
    kw.isPrefixOf s = true := by
  unfold lit at h
  split at h
  · assumption
  · cases h

theorem lit_some {kw s r : List Char} (h : lit kw s = some r) : s = kw ++ r := by
  have hp := lit_isPrefix h
  unfold lit at h
  rw [if_pos hp] at h
  obtain ⟨t, ht⟩ := List.isPrefixOf_iff_prefix.mp hp
  have hr : r = s.drop kw.length := (Option.some_inj.mp h).symm
  rw [hr, ← ht, List.drop_left]

theorem chr_some {c : Char} {s r : List Char} (h : chr c s = some r) : s = c :: r := by
  match s with
  | [] => cases h
  | x :: xs =>
    simp only [chr] at h
    split at h
    · next hx => cases h; rw [hx]
    · cases h

theorem match1_kw {s : List Char} {r : List Char × List Char} (h : match1 s = some r) :
    mallocKw.isPrefixOf s = true := by
  unfold match1 at h
  simp only [Option.bind_eq_some] at h
  obtain ⟨s1, h1, -⟩ := h
  exact lit_isPrefix h1

theorem match2_kw {s : List Char} {r : List Char × List Char} (h : match2 s = some r) :
    mallocKw.isPrefixOf s = true := by
  unfold match2 at h
  simp only [Option.bind_eq_some] at h
  obtain ⟨s1, h1, -⟩ := h
  exact lit_isPrefix h1

theorem match3_kw {s : List Char} {r : List Char × List Char} (h : match3 s = some r) :
    callocKw.isPrefixOf s = true := by
  unfold match3 at h
  simp only [Option.bind_eq_some] at h
  obtain ⟨s1, h1, -⟩ := h
  exact lit_isPrefix h1

theorem match4_kw {s : List Char} {r : List Char × List Char} (h : match4 s = some r) :
    callocKw.isPrefixOf s = true := by
  unfold match4 at h
  simp only [Option.bind_eq_some] at h
  obtain ⟨s1, h1, -⟩ := h
  exact lit_isPrefix h1

theorem match5_kw {s : List Char} {r : List Char × List Char} (h : match5 s = some r) :
    mallocKw.isPrefixOf s = true := by
  unfold match5 at h
  simp only [Option.bind_eq_some] at h
  obtain ⟨s1, h1, -⟩ := h
  exact lit_isPrefix h1

theorem match6_kw {s : List Char} {r : List Char × List Char} (h : match6 s = some r) :
    strdupKw.isPrefixOf s = true := by
  unfold match6 at h
  simp only [Option.bind_eq_some] at h
  obtain ⟨s1, h1, -⟩ := h
  exact lit_isPrefix h1

theorem matchStdlib_kw {s : List Char} {r : List Char × List Char}
    (h : matchStdlib s = some r) : stdlibLine.isPrefixOf s = true := by
  unfold matchStdlib at h
  simp only [Option.map_eq_some'] at h
  obtain ⟨s1, h1, -⟩ := h
  exact lit_isPrefix h1

theorem matchFree_reconstructs : Reconstructs matchFree := by
  intro s sp rest h
  unfold matchFree at h
  simp only [Option.bind_eq_some] at h
  obtain ⟨s1, h1, h⟩ := h
  obtain ⟨s2, h2, h⟩ := h
  split at h
  · next rest2 heq3 =>
    split at h
    · cases h
    · obtain ⟨hsp, hrest⟩ := Prod.mk.injEq _ _ _ _ ▸ Option.some_inj.mp h
      have hs : s = freeKw ++ s1 := lit_some h1
      have hs1 : s1.takeWhile isSp ++ s1.dropWhile isSp = s1 :=
        List.takeWhile_append_dropWhile isSp s1
      have hs1' : s1.dropWhile isSp = '(' :: s2 := chr_some h2
      have hs2 : s2.takeWhile (· != ')') ++ s2.dropWhile (· != ')') = s2 :=
        List.takeWhile_append_dropWhile (· != ')') s2
      rw [← hsp, ← hrest, hs]
      conv_lhs => rw [← hs1, hs1', ← hs2, heq3]
      simp [List.append_assoc]
  · cases h

theorem matchRealloc_reconstructs : Reconstructs matchRealloc := by
  intro s sp rest h
  unfold matchRealloc at h
  simp only [Option.bind_eq_some] at h
  obtain ⟨s1, h1, h⟩ := h
  obtain ⟨s2, h2, h⟩ := h
  split at h
  · next s3 heq3 =>
    split at h
    · cases h
    · split at h
      · next rest2 heq4 =>
        split at h
        · cases h
        · obtain ⟨hsp, hrest⟩ := Prod.mk.injEq _ _ _ _ ▸ Option.some_inj.mp h
          have hs : s = reallocKw ++ s1 := lit_some h1
          have hs1 : s1.takeWhile isSp ++ s1.dropWhile isSp = s1 :=
            List.takeWhile_append_dropWhile isSp s1
          have hs1' : s1.dropWhile isSp = '(' :: s2 := chr_some h2
          have hs2 : s2.takeWhile (· != ',') ++ s2.dropWhile (· != ',') = s2 :=
            List.takeWhile_append_dropWhile (· != ',') s2
          have hs3 : s3.takeWhile (· != ')') ++ s3.dropWhile (· != ')') = s3 :=
            List.takeWhile_append_dropWhile (· != ')') s3
          rw [← hsp, ← hrest, hs]
          conv_lhs => rw [← hs1, hs1', ← hs2, heq3, ← hs3, heq4]
          simp [List.append_assoc]
      · cases h
  · cases h

end SlangSpec

namespace SlangSpec

/- ## Decimal rendering facts -/

theorem digitChar_mem {d : Nat} (h : d < 10) : digitChar d ∈ decDigits := by
  interval_cases d <;> decide

theorem natCharsCore_digits :
    ∀ fuel n acc, (∀ c ∈ acc, c ∈ decDigits) → ∀ c ∈ natCharsCore fuel n acc, c ∈ decDigits := by
  intro fuel
  induction fuel with
  | zero => exact fun n acc hacc c hc => hacc c hc
  | succ fuel ih =>
    intro n acc hacc c hc
    rw [natCharsCore] at hc
    split at hc
    · next hlt =>
      rcases List.mem_cons.mp hc with rfl | hmem
      · exact digitChar_mem hlt
      · exact hacc c hmem
    · refine ih (n / 10) _ ?_ c hc
      intro x hx
      rcases List.mem_cons.mp hx with rfl | hmem
      · exact digitChar_mem (Nat.mod_lt n (by omega))
      · exact hacc x hmem

theorem natChars_digits {n : Nat} : ∀ c ∈ natChars n, c ∈ decDigits :=
  natCharsCore_digits (n + 1) n [] (by simp)

theorem natCharsCore_ne_nil_of_acc :
    ∀ fuel n acc, acc ≠ [] → natCharsCore fuel n acc ≠ [] := by
  intro fuel
  induction fuel with
  | zero => exact fun n acc h => h
  | succ fuel ih =>
    intro n acc h
    rw [natCharsCore]
    split
    · exact List.cons_ne_nil _ _
    · exact ih (n / 10) _ (List.cons_ne_nil _ _)

theorem natChars_ne_nil (n : Nat) : natChars n ≠ [] := by
  rw [natChars, natCharsCore]
  split
  · exact List.cons_ne_nil _ _
  · exact natCharsCore_ne_nil_of_acc n (n / 10) _ (List.cons_ne_nil _ _)

theorem natChars_head (n : Nat) : ∃ c, (natChars n).head? = some c ∧ c ∈ decDigits := by
  cases hnc : natChars n with
  | nil => exact absurd hnc (natChars_ne_nil n)
  | cons c cs =>
    exact ⟨c, rfl, natChars_digits c (by rw [hnc]; exact List.mem_cons_self c cs)⟩

/- ## `str.replace(old, new, 1)` -/

theorem replaceFirst_spec (old new : List Char) {s : List Char} (hne : old ≠ [])
    (h : containsSub old s = true) :
    ∃ u v, s = u ++ old ++ v ∧ replaceFirst old new s = u ++ new ++ v := by
  induction s with
  | nil =>
    rw [containsSub] at h
    exact absurd (List.isEmpty_iff.mp h) hne
  | cons c cs ih =>
    rw [containsSub, Bool.or_eq_true] at h
    by_cases hp : old.isPrefixOf (c :: cs) = true
    · obtain ⟨t, ht⟩ := List.isPrefixOf_iff_prefix.mp hp
      refine ⟨[], (c :: cs).drop old.length, ?_, ?_⟩
      · rw [List.nil_append, ← ht, List.drop_left]
      · simp only [replaceFirst]
        rw [if_pos hp, List.nil_append]
    · have h2 : containsSub old cs = true := by
        rcases h with h | h
        · exact absurd h hp
        · exact h
      obtain ⟨u, v, hs, hr⟩ := ih h2
      refine ⟨c :: u, v, by rw [hs]; rfl, ?_⟩
      simp only [replaceFirst]
      rw [if_neg hp, hr]
      rfl

theorem replaceFirst_id {old new s : List Char} (h : containsSub old s = false) :
    replaceFirst old new s = s := by
  induction s with
  | nil => rfl
  | cons c cs ih =>
    rw [containsSub, Bool.or_eq_false_iff] at h
    simp only [replaceFirst]
    rw [if_neg (by simp [h.1]), ih h.2]

/- ## `str.find` -/

theorem findAux_none_iff {kw s : List Char} :
    findAux kw s = none ↔ containsSub kw s = false := by
  induction s with
  | nil =>
    rw [findAux, containsSub]
    cases hk : kw.isEmpty <;> simp [hk]
  | cons c cs ih =>
    rw [findAux, containsSub]
    cases hp : kw.isPrefixOf (c :: cs) <;> simp [hp, ih]

theorem findAux_some_prefix {kw s : List Char} {k : Nat} (h : findAux kw s = some k) :
    kw <+: s.drop k := by
  induction s generalizing k with
  | nil =>
    rw [findAux] at h
    split at h
    · next hk =>
      cases h
      simp [List.isEmpty_iff.mp hk]
    · cases h
  | cons c cs ih =>
    rw [findAux] at h
    split at h
    · next hp =>
      cases h
      simpa using List.isPrefixOf_iff_prefix.mp hp
    · simp only [Option.map_eq_some'] at h
      obtain ⟨k2, hk2, rfl⟩ := h
      simpa using ih hk2

theorem findAux_none_of_short {kw s : List Char} (h : s.length < kw.length) :
    findAux kw s = none := by
  induction s with
  | nil =>
    rw [findAux]
    have : kw ≠ [] := by
      intro hk
      rw [hk] at h
      simp at h
    simp [this]
  | cons c cs ih =>
    rw [findAux]
    have hp : kw.isPrefixOf (c :: cs) = false := by
      rw [Bool.eq_false_iff]
      intro hp
      have := (List.isPrefixOf_iff_prefix.mp hp).length_le
      simp only [List.length_cons] at h this
      omega
    rw [hp]
    simp only [Bool.false_eq_true, if_false]
    rw [ih (by simp only [List.length_cons] at h; omega)]
    rfl

theorem pyFindNat_neg {s sub : List Char} {st : Nat}
    (h : containsSub sub (s.drop st) = false) : pyFindNat s sub st = -1 := by
  unfold pyFindNat
  rw [findAux_none_iff.mpr h]
  split <;> rfl

theorem pyFind_zero_neg {s sub : List Char} (h : containsSub sub s = false) :
    pyFind s sub 0 = -1 := by
  unfold pyFind
  rw [if_neg (by norm_num)]
  have h0 : (0 : Int).toNat = 0 := rfl
  rw [h0, pyFindNat_neg (by rwa [List.drop_zero])]

theorem pyFind_blank_neg_one (s : List Char) : pyFind s blankSep (-1) = -1 := by
  unfold pyFind
  rw [if_pos (by norm_num)]
  unfold pyFindNat
  rw [findAux_none_of_short (by
    rw [List.length_drop]
    have h2 : blankSep.length = 2 := rfl
    omega)]
  split <;> rfl

theorem pyFindNat_nonneg_prefix {s sub : List Char} {st : Nat} {p : Int}
    (h : pyFindNat s sub st = p) (hp : 0 ≤ p) : sub <+: s.drop p.toNat := by
  unfold pyFindNat at h
  split at h
  · omega
  · split at h
    · next k hk =>
      rw [← h]
      have hpre := findAux_some_prefix hk
      rwa [Int.toNat_natCast, ← List.drop_drop, Nat.add_comm] at *
    · omega

theorem pyFind_nonneg_prefix {s sub : List Char} {start p : Int}
    (h : pyFind s sub start = p) (hp : 0 ≤ p) : sub <+: s.drop p.toNat :=
  pyFindNat_nonneg_prefix h hp

theorem pyFindNat_ge {s sub : List Char} {st : Nat} {p : Int}
    (h : pyFindNat s sub st = p) (hp : 0 ≤ p) : (st : Int) ≤ p := by
  unfold pyFindNat at h
  split at h
  · omega
  · split at h
    · next k hk => omega
    · omega

theorem pyFind_ge_start {s sub : List Char} {start p : Int}
    (h : pyFind s sub start = p) (hp : 0 ≤ p) (hs : 0 ≤ start) : start ≤ p := by
  unfold pyFind at h
  rw [if_neg (by omega)] at h
  have := pyFindNat_ge h hp
  omega

end SlangSpec

namespace SlangSpec

/- ## `add_allocator_helpers` -/

theorem add_allocator_helpers_eq (s : List Char) :
    add_allocator_helpers s =
      if 0 < pyFind s blankSep (pyFind s includeKw 0) then
        s.take (pyFind s blankSep (pyFind s includeKw 0)).toNat ++ ['\n'] ++ allocHelpers
          ++ s.drop (pyFind s blankSep (pyFind s includeKw 0)).toNat
      else s := rfl

/-- When a first include exists and a blank-line separator is found from it,
    the helper body lands immediately after that separator (and is itself
    followed by a blank line). -/
theorem add_found {s : List Char} {p : Nat}
    (hi : 0 ≤ pyFind s includeKw 0)
    (hp : pyFind s blankSep (pyFind s includeKw 0) = (p : Int)) :
    add_allocator_helpers s =
      s.take (p + 2) ++ allocHelpersBody ++ blankSep ++ s.drop (p + 2) := by
  have hblank : blankSep <+: s.drop p := by
    have h2 := pyFind_nonneg_prefix hp (Int.natCast_nonneg p)
    rwa [Int.toNat_natCast] at h2
  have hpos : 0 < p := by
    rcases Nat.eq_zero_or_pos p with hz | h
    · exfalso
      subst hz
      have hb : blankSep <+: s := by simpa using hblank
      have hle := pyFind_ge_start hp (by norm_num) hi
      have hi0 : pyFind s includeKw 0 = 0 := by omega
      have hinc : includeKw <+: s := by
        have h2 := pyFind_nonneg_prefix hi0 (by norm_num)
        simpa using h2
      obtain ⟨t1, ht1⟩ := hinc
      obtain ⟨t2, ht2⟩ := hb
      have h1 : s.head? = some '#' := by rw [← ht1]; rfl
      have h2 : s.head? = some '\n' := by rw [← ht2]; rfl
      rw [h1] at h2
      exact absurd (Option.some_inj.mp h2) (by decide)
    · exact h
  obtain ⟨t, ht⟩ := hblank
  have hdrop2 : s.drop (p + 2) = t := by
    have hdd : s.drop (p + 2) = (s.drop p).drop 2 := (List.drop_drop 2 p s).symm
    rw [hdd, ← ht]
    rfl
  have hsplit : s.drop p = '\n' :: '\n' :: s.drop (p + 2) := by
    rw [hdrop2, ← ht]
    rfl
  have htake : s.take (p + 2) = s.take p ++ ['\n', '\n'] := by
    rw [List.take_add]
    congr 1
    rw [hsplit]
    rfl
  rw [add_allocator_helpers_eq, hp, if_pos (by exact_mod_cast hpos), Int.toNat_natCast,
    htake, hsplit]
  simp [allocHelpers, blankSep, List.append_assoc]

theorem add_not_found {s : List Char}
    (hp : pyFind s blankSep (pyFind s includeKw 0) = -1) :
    add_allocator_helpers s = s := by
  rw [add_allocator_helpers_eq, hp]
  norm_num

theorem add_id_of_no_include {s : List Char} (h : containsSub includeKw s = false) :
    add_allocator_helpers s = s := by
  apply add_not_found
  rw [pyFind_zero_neg h]
  exact pyFind_blank_neg_one s

end SlangSpec

namespace SlangSpec

/- ## Counting the generated definitions -/

theorem straddle_elim_nil {kw b : List Char} : ¬ Straddles kw [] b := by
  rintro ⟨k1, k2, -, hk1, -, hs, -⟩
  exact hk1 (List.suffix_nil.mp hs)

theorem patPrivate_head : ∀ c, patPrivate.head? = some c → c ∉ decDigits := by
  intro c hc
  rw [show patPrivate.head? = some 'f' from rfl] at hc
  injection hc with h
  subst h
  decide

theorem patExport_head : ∀ c, patExport.head? = some c → c ∉ decDigits := by
  intro c hc
  rw [show patExport.head? = some 'e' from rfl] at hc
  injection hc with h
  subst h
  decide

theorem patPrivate_nodigit : ∀ c ∈ decDigits, c ∉ patPrivate := by decide

theorem patExport_nodigit : ∀ c ∈ decDigits, c ∉ patExport := by decide

theorem countOcc_pat_natChars {pat : List Char} (hne : pat ≠ [])
    (hh : ∀ c, pat.head? = some c → c ∉ decDigits) (i : Nat) :
    countOcc pat (natChars i) = 0 := by
  match pat, hne with
  | c0 :: kw', _ =>
    exact countOcc_zero_of_head fun hm => hh c0 rfl (natChars_digits c0 hm)

/-- Push the count through a boundary whose right side starts with a digit run. -/
theorem countOcc_fix_digits {pat a R : List Char} {i : Nat}
    (hnd : ∀ c ∈ decDigits, c ∉ pat) :
    countOcc pat (a ++ (natChars i ++ R)) =
      countOcc pat a + countOcc pat (natChars i ++ R) := by
  obtain ⟨c, hc, hcd⟩ := natChars_head i
  refine countOcc_append (straddle_elim_right (c := c) ?_ (hnd c hcd))
  rw [List.head?_append, hc]
  rfl

/-- Push the count through a boundary whose left side is a digit run. -/
theorem countOcc_digits_append {pat : List Char}
    (hh : ∀ c, pat.head? = some c → c ∉ decDigits) (i : Nat) (R : List Char) :
    countOcc pat (natChars i ++ R) = countOcc pat (natChars i) + countOcc pat R :=
  countOcc_append (straddle_elim_left_mem (fun c hc => natChars_digits c hc) hh)

theorem blocksUpTo_last {f : Nat → List Char} (hlast : ∀ i, (f i).getLast? = some '\n')
    (hne : ∀ i, f i ≠ []) {k : Nat} (hk : 0 < k) :
    (blocksUpTo f k).getLast? = some '\n' := by
  match k, hk with
  | k + 1, _ =>
    rw [blocksUpTo, List.getLast?_append_of_ne_nil _ (hne k)]
    exact hlast k

theorem countOcc_blocksUpTo {pat : List Char} {f : Nat → List Char} {cnt : Nat}
    (hnl : '\n' ∉ pat) (hlast : ∀ i, (f i).getLast? = some '\n')
    (hne : ∀ i, f i ≠ []) (hcnt : ∀ i, countOcc pat (f i) = cnt) :
    ∀ k, countOcc pat (blocksUpTo f k) = k * cnt := by
  intro k
  induction k with
  | zero => simp [blocksUpTo, countOcc]
  | succ k ih =>
    have hns : ¬ Straddles pat (blocksUpTo f k) (f k) := by
      cases k with
      | zero => exact straddle_elim_nil
      | succ k2 => exact straddle_elim_last (blocksUpTo_last hlast hne (by omega)) hnl
    rw [blocksUpTo, countOcc_append hns, ih, hcnt]
    ring

theorem blocksUpTo_infix {f : Nat → List Char} {i k : Nat} (h : i < k) :
    ∃ u v, blocksUpTo f k = u ++ f i ++ v := by
  induction k with
  | zero => omega
  | succ k ih =>
    by_cases hik : i = k
    · subst hik
      exact ⟨blocksUpTo f i, [], by rw [blocksUpTo, List.append_nil]⟩
    · obtain ⟨u, v, huv⟩ := ih (by omega)
      exact ⟨u, v ++ f k, by rw [blocksUpTo, huv]; simp [List.append_assoc]⟩

theorem helperBlock_assoc (i : Nat) :
    helperBlock i = patPrivate ++ (natChars i ++ (fixH2 ++ (natChars (i + 1) ++ fixH3))) := by
  simp [helperBlock, List.append_assoc]

theorem exportBlock_assoc (i : Nat) :
    exportBlock i = patExport ++ (natChars i ++ (fixE2 ++ (natChars (i % 10) ++ fixE3))) := by
  simp [exportBlock, List.append_assoc]

theorem helperBlock_last (i : Nat) : (helperBlock i).getLast? = some '\n' := by
  rw [helperBlock, List.getLast?_append_of_ne_nil _ (by decide : fixH3 ≠ [])]
  decide

theorem exportBlock_last (i : Nat) : (exportBlock i).getLast? = some '\n' := by
  rw [exportBlock, List.getLast?_append_of_ne_nil _ (by decide : fixE3 ≠ [])]
  decide

theorem helperBlock_ne_nil (i : Nat) : helperBlock i ≠ [] := by
  rw [helperBlock]
  intro h
  exact (by decide : fixH3 ≠ []) (List.append_eq_nil.mp h).2

theorem exportBlock_ne_nil (i : Nat) : exportBlock i ≠ [] := by
  rw [exportBlock]
  intro h
  exact (by decide : fixE3 ≠ []) (List.append_eq_nil.mp h).2

theorem countOcc_patPrivate_helperBlock (i : Nat) :
    countOcc patPrivate (helperBlock i) = 1 := by
  rw [helperBlock_assoc,
    countOcc_append (straddle_elim_self
      (by decide : patPrivate = 'f' :: "unc privateHelper".toList) (by decide)),
    countOcc_digits_append patPrivate_head, countOcc_pat_natChars (by decide) patPrivate_head,
    countOcc_fix_digits patPrivate_nodigit,
    countOcc_digits_append patPrivate_head, countOcc_pat_natChars (by decide) patPrivate_head]
  have h1 : countOcc patPrivate patPrivate = 1 := by decide
  have h2 : countOcc patPrivate fixH2 = 0 := by decide
  have h3 : countOcc patPrivate fixH3 = 0 := by decide
  omega

theorem countOcc_patExport_helperBlock (i : Nat) :
    countOcc patExport (helperBlock i) = 0 := by
  obtain ⟨c1, hc1, hcd1⟩ := natChars_head i
  rw [helperBlock_assoc,
    countOcc_append (straddle_elim_right (c := c1)
      (by rw [List.head?_append, hc1]; rfl) (patExport_nodigit c1 hcd1)),
    countOcc_digits_append patExport_head, countOcc_pat_natChars (by decide) patExport_head,
    countOcc_fix_digits patExport_nodigit,
    countOcc_digits_append patExport_head, countOcc_pat_natChars (by decide) patExport_head]
  have h1 : countOcc patExport patPrivate = 0 := by decide
  have h2 : countOcc patExport fixH2 = 0 := by decide
  have h3 : countOcc patExport fixH3 = 0 := by decide
  omega

theorem countOcc_patExport_exportBlock (i : Nat) :
    countOcc patExport (exportBlock i) = 1 := by
  rw [exportBlock_assoc,
    countOcc_append (straddle_elim_self
      (by decide : patExport = 'e' :: "xport func publicFunction".toList) (by decide)),
    countOcc_digits_append patExport_head, countOcc_pat_natChars (by decide) patExport_head,
    countOcc_fix_digits patExport_nodigit,
    countOcc_digits_append patExport_head, countOcc_pat_natChars (by decide) patExport_head]
  have h1 : countOcc patExport patExport = 1 := by decide
  have h2 : countOcc patExport fixE2 = 0 := by decide
  have h3 : countOcc patExport fixE3 = 0 := by decide
  omega

theorem countOcc_patPrivate_exportBlock (i : Nat) :
    countOcc patPrivate (exportBlock i) = 0 := by
  obtain ⟨c1, hc1, hcd1⟩ := natChars_head i
  rw [exportBlock_assoc,
    countOcc_append (straddle_elim_right (c := c1)
      (by rw [List.head?_append, hc1]; rfl) (patPrivate_nodigit c1 hcd1)),
    countOcc_digits_append patPrivate_head, countOcc_pat_natChars (by decide) patPrivate_head,
    countOcc_fix_digits patPrivate_nodigit,
    countOcc_digits_append patPrivate_head, countOcc_pat_natChars (by decide) patPrivate_head]
  have h1 : countOcc patPrivate patExport = 0 := by decide
  have h2 : countOcc patPrivate fixE2 = 0 := by decide
  have h3 : countOcc patPrivate fixE3 = 0 := by decide
  omega

theorem moduleHeader_assoc (n : Nat) :
    moduleHeader n = fixHead1 ++ (natChars n ++ fixHead2) := by
  simp [moduleHeader, List.append_assoc]

theorem moduleFooter_assoc (n : Nat) :
    moduleFooter n = fixFoot1 ++ (natChars n ++ fixFoot2) := by
  simp [moduleFooter, List.append_assoc]

theorem moduleHeader_last (n : Nat) : (moduleHeader n).getLast? = some '\n' := by
  rw [moduleHeader, List.getLast?_append_of_ne_nil _ (by decide : fixHead2 ≠ [])]
  decide

theorem moduleFooter_last (n : Nat) : (moduleFooter n).getLast? = some '\n' := by
  rw [moduleFooter, List.getLast?_append_of_ne_nil _ (by decide : fixFoot2 ≠ [])]
  decide

theorem countOcc_moduleHeader {pat : List Char} (hne : pat ≠ [])
    (hh : ∀ c, pat.head? = some c → c ∉ decDigits)
    (hnd : ∀ c ∈ decDigits, c ∉ pat)
    (h1 : countOcc pat fixHead1 = 0) (h2 : countOcc pat fixHead2 = 0) (n : Nat) :
    countOcc pat (moduleHeader n) = 0 := by
  rw [moduleHeader_assoc, countOcc_fix_digits hnd, countOcc_digits_append hh,
    countOcc_pat_natChars hne hh, h1, h2]

theorem countOcc_moduleFooter {pat : List Char} (hne : pat ≠ [])
    (hh : ∀ c, pat.head? = some c → c ∉ decDigits)
    (hnd : ∀ c ∈ decDigits, c ∉ pat)
    (h1 : countOcc pat fixFoot1 = 0) (h2 : countOcc pat fixFoot2 = 0) (n : Nat) :
    countOcc pat (moduleFooter n) = 0 := by
  rw [moduleFooter_assoc, countOcc_fix_digits hnd, countOcc_digits_append hh,
    countOcc_pat_natChars hne hh, h1, h2]

theorem generate_assoc (n : Nat) :
    generate_large_module n =
      moduleHeader n ++ (blocksUpTo helperBlock (n / 2)
        ++ (blocksUpTo exportBlock (n / 2) ++ moduleFooter n)) := by
  simp [generate_large_module, List.append_assoc]

theorem countOcc_generate (pat : List Char) (hne : pat ≠ []) (hnl : '\n' ∉ pat)
    (hh : ∀ c, pat.head? = some c → c ∉ decDigits)
    (hnd : ∀ c ∈ decDigits, c ∉ pat)
    (hH1 : countOcc pat fixHead1 = 0) (hH2 : countOcc pat fixHead2 = 0)
    (hF1 : countOcc pat fixFoot1 = 0) (hF2 : countOcc pat fixFoot2 = 0)
    {cH cE : Nat}
    (hhb : ∀ i, countOcc pat (helperBlock i) = cH)
    (heb : ∀ i, countOcc pat (exportBlock i) = cE) (n : Nat) :
    countOcc pat (generate_large_module n) = (n / 2) * cH + (n / 2) * cE := by
  rw [generate_assoc]
  rw [countOcc_append (straddle_elim_last (moduleHeader_last n) hnl)]
  have hnsH : ¬ Straddles pat (blocksUpTo helperBlock (n / 2))
      (blocksUpTo exportBlock (n / 2) ++ moduleFooter n) := by
    rcases Nat.eq_zero_or_pos (n / 2) with hz | hpos
    · rw [hz]; exact straddle_elim_nil
    · exact straddle_elim_last
        (blocksUpTo_last helperBlock_last helperBlock_ne_nil hpos) hnl
  rw [countOcc_append hnsH]
  have hnsE : ¬ Straddles pat (blocksUpTo exportBlock (n / 2)) (moduleFooter n) := by
    rcases Nat.eq_zero_or_pos (n / 2) with hz | hpos
    · rw [hz]; exact straddle_elim_nil
    · exact straddle_elim_last
        (blocksUpTo_last exportBlock_last exportBlock_ne_nil hpos) hnl
  rw [countOcc_append hnsE,
    countOcc_moduleHeader hne hh hnd hH1 hH2,
    countOcc_moduleFooter hne hh hnd hF1 hF2,
    countOcc_blocksUpTo hnl helperBlock_last helperBlock_ne_nil hhb,
    countOcc_blocksUpTo hnl exportBlock_last exportBlock_ne_nil heb]
  omega

theorem countOcc_patPrivate_generate (n : Nat) :
    countOcc patPrivate (generate_large_module n) = n / 2 := by
  have h := countOcc_generate patPrivate (by decide) (by decide) patPrivate_head
    patPrivate_nodigit (by decide) (by decide) (by decide) (by decide)
    countOcc_patPrivate_helperBlock countOcc_patPrivate_exportBlock n
  omega

theorem countOcc_patExport_generate (n : Nat) :
    countOcc patExport (generate_large_module n) = n / 2 := by
  have h := countOcc_generate patExport (by decide) (by decide) patExport_head
    patExport_nodigit (by decide) (by decide) (by decide) (by decide)
    countOcc_patExport_helperBlock countOcc_patExport_exportBlock n
  omega

theorem occ_generate_helperBlock {n i : Nat} (h : i < n / 2) :
    containsSub (helperBlock i) (generate_large_module n) = true := by
  obtain ⟨u, v, huv⟩ := blocksUpTo_infix (f := helperBlock) h
  rw [containsSub_iff, generate_assoc, huv]
  have hself : Occ (helperBlock i) (helperBlock i) := ⟨0, by simp⟩
  exact occ_append_right _ (occ_append_left _
    (occ_append_left v (occ_append_right u hself)))

theorem occ_generate_exportBlock {n i : Nat} (h : i < n / 2) :
    containsSub (exportBlock i) (generate_large_module n) = true := by
  obtain ⟨u, v, huv⟩ := blocksUpTo_infix (f := exportBlock) h
  rw [containsSub_iff, generate_assoc, huv]
  have hself : Occ (exportBlock i) (exportBlock i) := ⟨0, by simp⟩
  exact occ_append_right _ (occ_append_right _ (occ_append_left _
    (occ_append_left v (occ_append_right u hself))))

/- ## Identity of the rewrite pipeline on keyword-free text -/

theorem applyRules_id {s : List Char}
    (hm : containsSub mallocKw s = false)
    (hc : containsSub callocKw s = false)
    (hs : containsSub strdupKw s = false) :
    applyRules s = s := by
  unfold applyRules
  rw [pySub_id (fun s r h => match1_kw h) hm,
    pySub_id (fun s r h => match2_kw h) hm,
    pySub_id (fun s r h => match3_kw h) hc,
    pySub_id (fun s r h => match4_kw h) hc,
    pySub_id (fun s r h => match5_kw h) hm,
    pySub_id (fun s r h => match6_kw h) hs]

theorem removeStdlib_id {s : List Char} (h : containsSub stdlibLine s = false) :
    removeStdlib s = s :=
  pySub_id (fun s r h2 => matchStdlib_kw h2) h

theorem straddle_elim_take {kw mid b : List Char}
    (hk : ∀ m, m < kw.length → 0 < m → ¬ (kw.take m <:+ mid)) :
    ¬ Straddles kw mid b := by
  rintro ⟨k1, k2, hkw, hk1, hk2, hs, -⟩
  have htake : k1 = kw.take k1.length := by rw [hkw, List.take_left]
  have hlt : k1.length < kw.length := by
    rw [hkw, List.length_append]
    have : 0 < k2.length := List.length_pos.mpr hk2
    omega
  have hpos : 0 < k1.length := List.length_pos.mpr hk1
  exact hk k1.length hlt hpos (htake ▸ hs)

/-- Occurrences in text with a fixed block `mid` spliced between `u` and `v`
    are occurrences in `u`, in `mid` or in `v`, provided no split of the
    keyword straddles either border of `mid`. -/
theorem noOcc_around_mid {kw u mid v : List Char}
    (hu : ¬ Occ kw u) (hv : ¬ Occ kw v)
    (hmid : containsSub kw mid = false)
    (hlen : kw.length ≤ mid.length)
    (hdrop : ∀ m, m < kw.length → 0 < m → ¬ ((kw.drop m).isPrefixOf mid = true))
    (htake : ∀ m, m < kw.length → 0 < m → ¬ (kw.take m <:+ mid)) :
    containsSub kw (u ++ (mid ++ v)) = false := by
  rw [containsSub_false_iff]
  intro hocc
  rcases occ_append hocc with h | h | h
  · exact hu h
  · rcases occ_append h with h2 | h2 | h2
    · exact (containsSub_false_iff.mp hmid) h2
    · exact hv h2
    · exact straddle_elim_take htake h2
  · refine straddle_elim_mid hlen (fun m h1 h2 hp => hdrop m h1 h2 ?_) h
    rwa [List.isPrefixOf_iff_prefix]

end SlangSpec

namespace SlangSpec

theorem pyFind_zero_nonneg {s sub : List Char} (h : containsSub sub s = true) :
    0 ≤ pyFind s sub 0 := by
  have h0 : pyFind s sub 0 = pyFindNat s sub 0 := by
    unfold pyFind
    norm_num
  rw [h0]
  unfold pyFindNat
  rw [if_neg (by omega)]
  split
  · next k hk => omega
  · next hnone =>
    rw [List.drop_zero, findAux_none_iff, h] at hnone
    cases hnone

theorem extMatcher_none {old new cs : List Char} (h : old.isPrefixOf cs = false) :
    extMatcher old new cs = none := by
  simp [extMatcher, h]

/- ## The claims -/

/-- C5: `generate(n)` contains exactly `n / 2` private-helper definitions
    (each block for `i < n / 2` occurring in the output, with helper `i`
    multiplying by `i + 1`) and exactly `n / 2` exported definitions;
    `generate(0)` and `generate(1)` consist of the header and the trailing
    initialization block only. -/
theorem claim_C5 (n : Nat) :
    countOcc patPrivate (generate_large_module n) = n / 2 ∧
    countOcc patExport (generate_large_module n) = n / 2 ∧
    (∀ i, i < n / 2 → containsSub (helperBlock i) (generate_large_module n) = true) ∧
    generate_large_module 0 = moduleHeader 0 ++ moduleFooter 0 ∧
    generate_large_module 1 = moduleHeader 1 ++ moduleFooter 1 := by
  refine ⟨countOcc_patPrivate_generate n, countOcc_patExport_generate n,
    fun i hi => occ_generate_helperBlock hi, ?_, ?_⟩
  · simp [generate_large_module, blocksUpTo]
  · simp [generate_large_module, blocksUpTo]

theorem claim_C5_witness :
    containsSub (helperBlock 2) (generate_large_module 6) = true :=
  (claim_C5 6).2.2.1 2 (by decide)

/-- C6: for `n ≥ 20` every exported definition of `generate(n)` occurs in the
    output, references helper `i % 10`, and that index is at most 9. -/
theorem claim_C6 (n : Nat) (hn : 20 ≤ n) :
    ∀ i, i < n / 2 →
      containsSub (exportBlock i) (generate_large_module n) = true ∧
      exportBlock i = patExport ++ natChars i ++ fixE2 ++ natChars (i % 10) ++ fixE3 ∧
      i % 10 ≤ 9 :=
  fun i hi => ⟨occ_generate_exportBlock hi, rfl, by omega⟩

theorem claim_C6_witness :
    containsSub (exportBlock 13) (generate_large_module 30) = true ∧
    exportBlock 13 = patExport ++ natChars 13 ++ fixE2 ++ natChars (13 % 10) ++ fixE3 ∧
    13 % 10 ≤ 9 :=
  claim_C6 30 (by decide) 13 (by decide)

/-- C10: a text with no `#include` substring is returned unchanged by
    `add_allocator_helpers`: `content.find('#include')` is -1, so the blank
    line search starts at the clamped final index and cannot match, and the
    guarded insertion is skipped. -/
theorem claim_C10 (s : List Char) (h : containsSub includeKw s = false) :
    add_allocator_helpers s = s :=
  add_id_of_no_include h

theorem claim_C10_witness :
    add_allocator_helpers ("int x;\n".toList) = "int x;\n".toList :=
  claim_C10 _ (by decide)

/-- C3: when the text has a first `#include` and a `"\n\n"` separator at or
    after it (at index p), the fixed two-helper block lands immediately after
    that blank line (the text through index p+1, then the helper body, then a
    blank line, then the rest); when no such separator exists the text is
    returned unchanged. -/
theorem claim_C3 (s : List Char) (hi : 0 ≤ pyFind s includeKw 0) :
    (pyFind s blankSep (pyFind s includeKw 0) = -1 → add_allocator_helpers s = s) ∧
    (∀ p : Nat, pyFind s blankSep (pyFind s includeKw 0) = (p : Int) →
      add_allocator_helpers s =
        s.take (p + 2) ++ allocHelpersBody ++ blankSep ++ s.drop (p + 2)) :=
  ⟨fun hp => add_not_found hp, fun p hp => add_found hi hp⟩

theorem claim_C3_witness :
    add_allocator_helpers ("#include \"a.h\"\n\nint x;\n".toList) =
      ("#include \"a.h\"\n\nint x;\n".toList).take 16 ++ allocHelpersBody ++ blankSep
        ++ ("#include \"a.h\"\n\nint x;\n".toList).drop 16 :=
  (claim_C3 _ (by decide)).2 14 (by decide)

end SlangSpec

namespace SlangSpec

/-- C9: the patterns are not word-boundary anchored.  `xmalloc(n)` is
    rewritten at its `malloc(n)` suffix, leaving the leading `x` in place,
    and `my_free(p)` is reported as a deallocation call site (its `free(p)`
    suffix matches, on line 1). -/
theorem claim_C9 :
    refactorText ("xmalloc(n)".toList)
        = "xMEM_ALLOC(allocators_get(ALLOC_SYSTEM_PARSER), n)".toList ∧
    freeReports ("my_free(p)".toList) = [(1, "free(p)".toList)] := by
  constructor
  · decide
  · decide

/-- C7: the substitution rules never touch deallocation calls.  On any text
    free of the `malloc`/`calloc`/`strdup` keywords the rule set is the
    identity; on the representative input with one `free(ptr)` call the
    rewritten text equals the input, still contains `free(ptr)` verbatim, and
    the diagnostics report exactly that one call site (line 2). -/
theorem claim_C7 :
    (∀ s : List Char, containsSub mallocKw s = false →
        containsSub callocKw s = false → containsSub strdupKw s = false →
        applyRules s = s) ∧
    refactorText ("void f(void) \x7b\n    free(ptr);\n\x7d\n".toList)
        = "void f(void) \x7b\n    free(ptr);\n\x7d\n".toList ∧
    containsSub ("free(ptr)".toList)
        (refactorText ("void f(void) \x7b\n    free(ptr);\n\x7d\n".toList)) = true ∧
    freeReports ("void f(void) \x7b\n    free(ptr);\n\x7d\n".toList)
        = [(2, "free(ptr)".toList)] := by
  refine ⟨fun s h1 h2 h3 => applyRules_id h1 h2 h3, ?_, ?_, ?_⟩
  · decide
  · decide
  · decide

theorem claim_C7_witness :
    applyRules ("free(x);\n".toList) = "free(x);\n".toList :=
  claim_C7.1 _ (by decide) (by decide) (by decide)

/-- C4: `malloc(n * sizeof(Bar))` becomes the array call and `malloc(100)`
    becomes the generic call (and no array call); the generic fallback never
    re-matches rewritten text: it is the identity on any text without the
    `malloc` keyword, the rewritten exemplar is left unchanged by it, and the
    templates the sized rules emit contain no `malloc`. -/
theorem claim_C4 :
    containsSub ("MEM_NEW_ARRAY(allocators_get(ALLOC_SYSTEM_PARSER), Bar, n)".toList)
        (refactorText ("arr = malloc(n * sizeof(Bar));\n".toList)) = true ∧
    containsSub ("MEM_ALLOC(allocators_get(ALLOC_SYSTEM_PARSER), 100)".toList)
        (refactorText ("ptr = malloc(100);\n".toList)) = true ∧
    containsSub ("MEM_NEW_ARRAY".toList)
        (refactorText ("ptr = malloc(100);\n".toList)) = false ∧
    (pySub match5 (pySub match4 (pySub match3 (pySub match2 (pySub match1
          ("arr = malloc(n * sizeof(Bar));\n".toList)))))
      = pySub match4 (pySub match3 (pySub match2 (pySub match1
          ("arr = malloc(n * sizeof(Bar));\n".toList))))) ∧
    (∀ s : List Char, containsSub mallocKw s = false → pySub match5 s = s) ∧
    containsSub mallocKw tmplNew = false ∧
    containsSub mallocKw tmplNewArray = false := by
  refine ⟨?_, ?_, ?_, ?_, fun s h => pySub_id (fun s2 r h2 => match5_kw h2) h, ?_, ?_⟩
  · decide
  · decide
  · decide
  · decide
  · decide
  · decide

theorem claim_C4_witness :
    pySub match5 ("int x;\n".toList) = "int x;\n".toList :=
  claim_C4.2.2.2.2.1 _ (by decide)

/-- C2 counterexample: `filename.replace('.c', '_refactored.c')` replaces
    every occurrence of `.c`, not only a trailing extension: the filename
    `a.c.c` yields `a_refactored.c_refactored.c`, not `a.c_refactored.c`. -/
theorem claim_C2_counterexample :
    output_filename ("a.c.c".toList) = "a_refactored.c_refactored.c".toList ∧
    output_filename ("a.c.c".toList) ≠ "a.c_refactored.c".toList := by
  constructor
  · decide
  · decide

/-- C2 (amended): the output filename replaces every occurrence of the
    substring `.c` with `_refactored.c`; for a filename whose only occurrence
    of `.c` is its trailing extension, the output is `<stem>_refactored.c`. -/
theorem claim_C2 (stem : List Char) (h : containsSub (".c".toList) stem = false) :
    output_filename (stem ++ ".c".toList) = stem ++ "_refactored.c".toList := by
  unfold output_filename pyReplaceAll
  induction stem with
  | nil => decide
  | cons c stem ih =>
    rw [containsSub, Bool.or_eq_false_iff] at h
    have hp : (".c".toList).isPrefixOf (c :: (stem ++ ".c".toList)) = false := by
      rw [Bool.eq_false_iff]
      intro hp
      have hpre := List.isPrefixOf_iff_prefix.mp hp
      rw [show (".c".toList) = '.' :: ['c'] from rfl, List.cons_prefix_cons] at hpre
      obtain ⟨hc, hpre2⟩ := hpre
      cases stem with
      | nil =>
        rw [List.nil_append, List.cons_prefix_cons] at hpre2
        exact absurd hpre2.1 (by decide)
      | cons d stem2 =>
        rw [List.cons_append, List.cons_prefix_cons] at hpre2
        obtain ⟨hd, -⟩ := hpre2
        subst hc
        subst hd
        have heval : (".c".toList).isPrefixOf ('.' :: 'c' :: stem2) = true := by
          simp [List.isPrefixOf]
        rw [heval] at h
        exact absurd h.1 (by simp)
    rw [List.cons_append, pySub_cons_none (extMatcher_none hp), ih h.2]
    rfl

theorem claim_C2_witness :
    output_filename ("parser".toList ++ ".c".toList)
      = "parser".toList ++ "_refactored.c".toList :=
  claim_C2 _ (by decide)

end SlangSpec

namespace SlangSpec

/-- C1 counterexample: for the input `#include <stdlib.h>\nfree(p)\n` the
    `free(p)` call lies on line 2 of the original text (one newline precedes
    it), but the script scans the text after the rewrite pipeline — the
    stdlib include line is already deleted — and reports line 1. -/
theorem claim_C1_counterexample :
    (refactor_parser_memory ("#include <stdlib.h>\nfree(p)\n".toList)).2.1
        = [(1, "free(p)".toList)] ∧
    pyFinditer matchFree ("#include <stdlib.h>\nfree(p)\n".toList)
        = [(2, "free(p)".toList)] := by
  constructor
  · decide
  · decide

/-- C1 (amended): the free/realloc diagnostics are computed against the
    rewritten text (after include injection, stdlib removal and the
    substitution rules, before helper injection): every reported pair is a
    span occurring in that rewritten text, with line number one plus the
    newlines preceding the span there — not against the pre-rewrite input. -/
theorem claim_C1 (content : List Char) :
    (∀ pr ∈ (refactor_parser_memory content).2.1,
      ∃ pre post, refactorText content = pre ++ pr.2 ++ post ∧ pr.1 = countNl pre + 1) ∧
    (∀ pr ∈ (refactor_parser_memory content).2.2,
      ∃ pre post, refactorText content = pre ++ pr.2 ++ post ∧ pr.1 = countNl pre + 1) :=
  ⟨fun pr hpr => pyFinditer_sound matchFree_reconstructs hpr,
   fun pr hpr => pyFinditer_sound matchRealloc_reconstructs hpr⟩

theorem claim_C1_witness :
    ∃ pre post,
      refactorText ("#include <stdlib.h>\nfree(p)\n".toList)
          = pre ++ (1, "free(p)".toList).2 ++ post ∧
      (1, "free(p)".toList).1 = countNl pre + 1 :=
  (claim_C1 _).1 (1, "free(p)".toList) (by decide)

/-- C8 counterexample: an input consisting of only the anchor include line
    satisfies the claim's conditions (no target pattern, anchor present), but
    the pipeline output is the input plus the injected include line only —
    the helper block is absent, because the injected text contains no blank
    line. -/
theorem claim_C8_counterexample :
    fullPipeline ("#include \"parser/parser.h\"".toList)
        = ("#include \"parser/parser.h\"\n#include \"utils/allocators.h\"\n".toList) ∧
    containsSub ("parser_strdup_lexeme".toList)
        (fullPipeline ("#include \"parser/parser.h\"".toList)) = false := by
  constructor
  · decide
  · decide

/-- C8 (amended): on an input with none of the target patterns but containing
    the anchor include line, the pipeline output is the input with the
    allocators include line spliced after the first anchor occurrence, plus
    the helper block inserted after the first blank line following the first
    include of the injected text when such a blank line exists; when it does
    not, only the include line is added. -/
theorem claim_C8 (s : List Char)
    (h1 : containsSub mallocKw s = false)
    (h2 : containsSub callocKw s = false)
    (h3 : containsSub reallocKw s = false)
    (h4 : containsSub freeKw s = false)
    (h5 : containsSub strdupKw s = false)
    (h6 : containsSub stdlibLine s = false)
    (h7 : containsSub anchorInclude s = true) :
    ∃ u v,
      s = u ++ anchorInclude ++ v ∧
      injectInclude s = u ++ injectedText ++ v ∧
      refactorText s = injectInclude s ∧
      (pyFind (injectInclude s) blankSep (pyFind (injectInclude s) includeKw 0) = -1 →
          fullPipeline s = injectInclude s) ∧
      (∀ p : Nat,
          pyFind (injectInclude s) blankSep (pyFind (injectInclude s) includeKw 0) = (p : Int) →
          fullPipeline s =
            (injectInclude s).take (p + 2) ++ allocHelpersBody ++ blankSep
              ++ (injectInclude s).drop (p + 2)) := by
  obtain ⟨u, v, hsplit, hinj⟩ :=
    replaceFirst_spec anchorInclude injectedText (by decide) h7
  have hinj' : injectInclude s = u ++ injectedText ++ v := hinj
  have hocc_u : ∀ kw : List Char, Occ kw u → Occ kw s := by
    intro kw hk
    rw [hsplit]
    exact occ_append_left v (occ_append_left anchorInclude hk)
  have hocc_v : ∀ kw : List Char, Occ kw v → Occ kw s := by
    intro kw hk
    rw [hsplit]
    exact occ_append_right (u ++ anchorInclude) hk
  have hkw : ∀ kw : List Char, containsSub kw s = false →
      containsSub kw injectedText = false →
      kw.length ≤ injectedText.length →
      (∀ m, m < kw.length → 0 < m → ¬ ((kw.drop m).isPrefixOf injectedText = true)) →
      (∀ m, m < kw.length → 0 < m → ¬ (kw.take m <:+ injectedText)) →
      containsSub kw (injectInclude s) = false := by
    intro kw hno hmid hlen hdrop htake
    rw [hinj', List.append_assoc]
    refine noOcc_around_mid ?_ ?_ hmid hlen hdrop htake
    · exact fun hk => (containsSub_false_iff.mp hno) (hocc_u kw hk)
    · exact fun hk => (containsSub_false_iff.mp hno) (hocc_v kw hk)
  have hm2 : containsSub mallocKw (injectInclude s) = false :=
    hkw _ h1 (by decide) (by decide) (by decide) (by decide)
  have hc2 : containsSub callocKw (injectInclude s) = false :=
    hkw _ h2 (by decide) (by decide) (by decide) (by decide)
  have hs2 : containsSub strdupKw (injectInclude s) = false :=
    hkw _ h5 (by decide) (by decide) (by decide) (by decide)
  have hstd2 : containsSub stdlibLine (injectInclude s) = false :=
    hkw _ h6 (by decide) (by decide) (by decide) (by decide)
  have hrt : refactorText s = injectInclude s := by
    unfold refactorText
    rw [removeStdlib_id hstd2, applyRules_id hm2 hc2 hs2]
  have hfp : fullPipeline s = add_allocator_helpers (injectInclude s) := by
    unfold fullPipeline
    rw [hrt]
  have hincl : containsSub includeKw (injectInclude s) = true := by
    rw [containsSub_iff, hinj', List.append_assoc]
    refine occ_append_right u ?_
    exact ⟨0, by
      rw [List.drop_zero]
      exact (by decide : includeKw <+: injectedText).trans (List.prefix_append _ _)⟩
  have hi : 0 ≤ pyFind (injectInclude s) includeKw 0 := pyFind_zero_nonneg hincl
  refine ⟨u, v, hsplit, hinj', hrt, ?_, ?_⟩
  · intro hneg
    rw [hfp]
    exact add_not_found hneg
  · intro p hp
    rw [hfp]
    exact add_found hi hp

theorem claim_C8_witness :
    ∃ u v,
      ("#include \"parser/parser.h\"\n\nint x;\n".toList) = u ++ anchorInclude ++ v ∧
      injectInclude ("#include \"parser/parser.h\"\n\nint x;\n".toList)
          = u ++ injectedText ++ v ∧
      refactorText ("#include \"parser/parser.h\"\n\nint x;\n".toList)
          = injectInclude ("#include \"parser/parser.h\"\n\nint x;\n".toList) ∧
      (pyFind (injectInclude ("#include \"parser/parser.h\"\n\nint x;\n".toList)) blankSep
          (pyFind (injectInclude ("#include \"parser/parser.h\"\n\nint x;\n".toList))
            includeKw 0) = -1 →
        fullPipeline ("#include \"parser/parser.h\"\n\nint x;\n".toList)
          = injectInclude ("#include \"parser/parser.h\"\n\nint x;\n".toList)) ∧
      (∀ p : Nat,
        pyFind (injectInclude ("#include \"parser/parser.h\"\n\nint x;\n".toList)) blankSep
          (pyFind (injectInclude ("#include \"parser/parser.h\"\n\nint x;\n".toList))
            includeKw 0) = (p : Int) →
        fullPipeline ("#include \"parser/parser.h\"\n\nint x;\n".toList)
          = (injectInclude ("#include \"parser/parser.h\"\n\nint x;\n".toList)).take (p + 2)
              ++ allocHelpersBody ++ blankSep
              ++ (injectInclude ("#include \"parser/parser.h\"\n\nint x;\n".toList)).drop (p + 2)) :=
  claim_C8 _ (by decide) (by decide) (by decide) (by decide) (by decide) (by decide) (by decide)

end SlangSpec
